import Mathlib

/-!
# Shallow embedding of `svelte-number-formatter`'s `NumberFormatter` pipeline

Source: `src/NumberFormatter.ts`.  JS strings are modelled as `List Char`;
JS numbers are modelled as exact rationals `ℚ` (the claims under study are
about branching, ordering and message selection, not about binary floating
point rounding).  The platform's `Intl.NumberFormat` facility is modelled as
an abstract oracle `IntlFormatter` that either returns a formatted string or
`none` (= the facility threw); a concrete `en-US` instance `enUSIntl` is
provided for evaluating the pipeline on concrete inputs.  `parseFloat` and
`Number.prototype.toString` are modelled from their ECMAScript semantics on
the decimal strings this pipeline produces (no exponent notation, which the
sanitizer can never produce).
-/

/- Rational arithmetic must evaluate inside `decide`/`rfl` proofs about
concrete pipeline runs, so the arithmetic on `ℚ` is made semireducible for
this file. -/
attribute [local semireducible] Rat.mul Rat.inv Rat.add Rat.sub Rat.ofScientific

namespace NF

/-- `FormatOptions.style` (`"decimal" | "currency" | "percent"`). -/
inductive Style where
  | decimal
  | currency
  | percent
deriving DecidableEq

/-- `Required<FormatOptions>` (lines 4-18 and 32-46 of `NumberFormatter.ts`).
`prefixText`/`suffixText` model the `prefix`/`suffix` string options. -/
structure Options where
  locale : String
  useGrouping : Bool
  decimals : Nat
  currency : String
  style : Style
  allowNegative : Bool
  allowDecimal : Bool
  min : ℚ
  max : ℚ
  prefixText : List Char
  suffixText : List Char
  placeholder : List Char
  strict : Bool
deriving DecidableEq

/-- The default options (lines 32-46); `getDefaultLocale` falls back to
`"en-US"` in a headless context (lines 65-70), and `min`/`max` default to
`Number.MIN_SAFE_INTEGER` / `Number.MAX_SAFE_INTEGER` = ∓(2^53 - 1). -/
def defaultOptions : Options where
  locale := "en-US"
  useGrouping := true
  decimals := 0
  currency := "USD"
  style := .decimal
  allowNegative := true
  allowDecimal := true
  min := -(2 ^ 53 - 1)
  max := 2 ^ 53 - 1
  prefixText := []
  suffixText := []
  placeholder := []
  strict := false

/-- `Partial<FormatOptions>`: every field optional, for `setOptions`. -/
structure PartialOptions where
  locale : Option String := none
  useGrouping : Option Bool := none
  decimals : Option Nat := none
  currency : Option String := none
  style : Option Style := none
  allowNegative : Option Bool := none
  allowDecimal : Option Bool := none
  min : Option ℚ := none
  max : Option ℚ := none
  prefixText : Option (List Char) := none
  suffixText : Option (List Char) := none
  placeholder : Option (List Char) := none
  strict : Option Bool := none

/-- The spread `{ ...this.options, ...newOpts }` of line 224: a field given in
`newOpts` overrides the current one. -/
def mergeOptions (o : Options) (p : PartialOptions) : Options where
  locale := p.locale.getD o.locale
  useGrouping := p.useGrouping.getD o.useGrouping
  decimals := p.decimals.getD o.decimals
  currency := p.currency.getD o.currency
  style := p.style.getD o.style
  allowNegative := p.allowNegative.getD o.allowNegative
  allowDecimal := p.allowDecimal.getD o.allowDecimal
  min := p.min.getD o.min
  max := p.max.getD o.max
  prefixText := p.prefixText.getD o.prefixText
  suffixText := p.suffixText.getD o.suffixText
  placeholder := p.placeholder.getD o.placeholder
  strict := p.strict.getD o.strict

/-- `ValidationResult` (lines 20-24). -/
structure ValidationResult where
  isValid : Bool
  error : Option (List Char) := none
  warning : Option (List Char) := none
deriving DecidableEq

/-! ## Platform string/number primitives -/

/-- Numeric value of a digit string (most significant first). -/
def digitsVal (ds : List Char) : Nat :=
  ds.foldl (fun a c => 10 * a + (c.toNat - '0'.toNat)) 0

/-- Modelled from the platform: ECMAScript `parseFloat` restricted to the
exponent-free decimal strings this pipeline feeds it: an optional sign, then
an integer digit run, then optionally `.` and a fraction digit run; parsing
stops at the first character that does not fit (so `"1.2.3"` parses as `1.2`)
and yields NaN (`none`) when no digit was consumed. -/
def jsParseFloat (l : List Char) : Option ℚ :=
  let sr : Bool × List Char :=
    match l with
    | '-' :: t => (true, t)
    | '+' :: t => (false, t)
    | _ => (false, l)
  let ip := sr.2.takeWhile Char.isDigit
  let r1 := sr.2.dropWhile Char.isDigit
  let fp :=
    match r1 with
    | '.' :: t => t.takeWhile Char.isDigit
    | _ => []
  if ip.isEmpty && fp.isEmpty then none
  else
    let mag : ℚ := (digitsVal ip : ℚ) + (digitsVal fp : ℚ) / 10 ^ fp.length
    some (if sr.1 then -mag else mag)

/-- Decimal digits of a natural number, most significant first. -/
def natDigits (n : Nat) : List Char := Nat.toDigits 10 n

/-- Modelled from the platform: `Number.prototype.toString` for an integer. -/
def intToString (i : Int) : List Char :=
  if i < 0 then '-' :: natDigits i.natAbs else natDigits i.natAbs

/-- Modelled from the platform: `Number.prototype.toString` for values whose
decimal expansion terminates (which covers every number the claims evaluate);
`k` is the least number of fraction digits needed, so there are no trailing
zeros, as in JS.  Non-terminating rationals (unreachable here) fall back to a
`num/den` rendering. -/
def qToString (q : ℚ) : List Char :=
  match (List.range 101).find? (fun k => (q * 10 ^ k).den = 1) with
  | some k =>
    if k = 0 then intToString q.num
    else
      let n : Int := (q * 10 ^ k).num
      let ds := natDigits n.natAbs
      let ds := if ds.length ≤ k then List.replicate (k + 1 - ds.length) '0' ++ ds else ds
      let ip := ds.take (ds.length - k)
      let fp := ds.drop (ds.length - k)
      (if n < 0 then ['-'] else []) ++ ip ++ '.' :: fp
  | none => intToString q.num ++ '/' :: natDigits q.den

/-! ## The sanitizer (`cleanInput`, lines 105-145) -/

/-- JS `String.prototype.split` with a single-character separator: `""` splits
to `[""]`, separators at the ends produce empty parts. -/
def splitOnChar (c : Char) : List Char → List (List Char)
  | [] => [[]]
  | x :: xs =>
    if x = c then [] :: splitOnChar c xs
    else
      match splitOnChar c xs with
      | [] => [[x]]
      | p :: ps => (x :: p) :: ps

/-- JS `String.prototype.replace` with a plain-string pattern: removes the
first occurrence of `c`. -/
def removeFirst (c : Char) : List Char → List Char
  | [] => []
  | x :: xs => if x = c then xs else x :: removeFirst c xs

/-- The character filter of lines 117-123: digits always pass, `.` passes when
`allowDecimal`, `-` passes when `allowNegative`. -/
def isAllowedChar (o : Options) (c : Char) : Bool :=
  c.isDigit || (o.allowDecimal && c == '.') || (o.allowNegative && c == '-')

/-- Lines 126-134 ("Ensure minus sign is only at the beginning"): with more
than one `-` every `-` is removed and one is prepended iff the *original*
input started with `-` (`origNeg`); with exactly one non-leading `-` that `-`
is removed; otherwise the text is unchanged. -/
def minusStep (origNeg : Bool) (l : List Char) : List Char :=
  if 1 < l.count '-' then
    let r := l.filter (· != '-')
    if origNeg then '-' :: r else r
  else if l.contains '-' && !(l.head? == some '-') then removeFirst '-' l
  else l

/-- Lines 136-142 ("Handle multiple decimal points"): split on `.`; with more
than two parts, keep the first part (`parts[0]`), one `.`, and the remaining
parts (`parts.slice(1)`) joined. -/
def dotStep (l : List Char) : List Char :=
  let parts := splitOnChar '.' l
  if 2 < parts.length then parts.headI ++ '.' :: parts.tail.flatten else l

/-- `cleanInput` (lines 105-145).  The `escapeRegex`-protected regexes of
lines 111 and 114 strip one literal occurrence of the configured prefix at the
start / suffix at the end; the guard `if (this.options.prefix)` is the JS
truthiness test, i.e. the empty string disables the strip.  Note that line 130
tests `input.startsWith("-")` on the *original* argument. -/
def cleanInput (o : Options) (input : List Char) : List Char :=
  if input = [] then []
  else
    let c1 :=
      if !o.prefixText.isEmpty && o.prefixText.isPrefixOf input then
        input.drop o.prefixText.length
      else input
    let c2 :=
      if !o.suffixText.isEmpty && o.suffixText.isSuffixOf c1 then
        c1.take (c1.length - o.suffixText.length)
      else c1
    let c3 := c2.filter (isAllowedChar o)
    let c4 := if o.allowNegative then minusStep (input.head? == some '-') c3 else c3
    if o.allowDecimal then dotStep c4 else c4

/-! ## The validator (`validateInput`, lines 147-182) -/

/-- `validateInput` (lines 147-182): empty is valid; NaN is a format error;
then the `min` bound, then the `max` bound; then, when `decimals === 0` and
the text has a non-empty fractional part, a rounding warning. -/
def validateInput (o : Options) (value : List Char) : ValidationResult :=
  if value = [] then { isValid := true }
  else
    match jsParseFloat value with
    | none => { isValid := false, error := some "Invalid number format".data }
    | some num =>
      if num < o.min then
        { isValid := false
          error := some ("Value must be at least ".data ++ qToString o.min) }
      else if o.max < num then
        { isValid := false
          error := some ("Value must be at most ".data ++ qToString o.max) }
      else if o.decimals = 0 && value.contains '.' then
        match (splitOnChar '.' value).tail.head? with
        | some dp => if dp ≠ [] then { isValid := true, warning := some "Decimal places will be rounded".data } else { isValid := true }
        | none => { isValid := true }
      else { isValid := true }

/-! ## The formatter (`formatNumber`, lines 184-217) -/

/-- The `Intl.NumberFormatOptions` record built on lines 192-201. -/
structure IntlOptions where
  locale : String
  useGrouping : Bool
  minimumFractionDigits : Nat
  maximumFractionDigits : Nat
  style : Style
  currency : Option String
deriving DecidableEq

/-- The platform's locale formatter: `none` models
`new Intl.NumberFormat(...).format(...)` throwing. -/
def IntlFormatter : Type := IntlOptions → ℚ → Option (List Char)

/-- Lines 190-201: the options handed to `Intl.NumberFormat`; `currency` is
attached only for the currency style. -/
def mkIntlOptions (o : Options) : IntlOptions where
  locale := o.locale
  useGrouping := o.useGrouping
  minimumFractionDigits := o.decimals
  maximumFractionDigits := o.decimals
  style := if o.style = .percent then .percent else o.style
  currency := if o.style = .currency then some o.currency else none

/-- `formatNumber` (lines 184-217), plus a `Bool` recording whether the
`catch` branch emitted its `console.warn` diagnostic (line 214).  Empty or
unparsable text yields the placeholder; for the percent style the parsed
value is divided by 100 before it is handed to the locale formatter; the
prefix/suffix are appended only after a successful format, so when the
formatter throws the sanitized text itself is returned, undecorated. -/
def formatNumberCore (intl : IntlFormatter) (o : Options) (value : List Char) :
    List Char × Bool :=
  if value = [] then (o.placeholder, false)
  else
    match jsParseFloat value with
    | none => (o.placeholder, false)
    | some num =>
      match intl (mkIntlOptions o) (if o.style = .percent then num / 100 else num) with
      | some f => (o.prefixText ++ f ++ o.suffixText, false)
      | none => (value, true)

/-- The display text of `formatNumber`. -/
def formatNumber (intl : IntlFormatter) (o : Options) (value : List Char) : List Char :=
  (formatNumberCore intl o value).1

/-! ## A concrete `en-US` model of `Intl.NumberFormat` -/

/-- Rounding to an integer, ties away from zero (the `halfExpand` default of
`Intl.NumberFormat`). -/
def jsRound (q : ℚ) : Int :=
  if 0 ≤ q then ⌊q + 1 / 2⌋ else -⌊-q + 1 / 2⌋

/-- Digit chunks of size 3 taken from the front, with explicit fuel so that
the kernel can evaluate it. -/
def chunks3 : Nat → List Char → List (List Char)
  | 0, _ => []
  | _, [] => []
  | fuel + 1, x :: xs => (x :: xs).take 3 :: chunks3 fuel ((x :: xs).drop 3)

/-- Thousands grouping with `,`, as `en-US` renders it. -/
def group3 (ds : List Char) : List Char :=
  (((chunks3 ds.length ds.reverse).intersperse [',']).flatten).reverse

/-- Modelled from the platform: `Intl.NumberFormat` for the `en-US` locale
(grouping with `,`, `$` for USD currency, percent = value × 100 with a `%`
sign), throwing (`none`) on any other locale tag. -/
def enUSIntl : IntlFormatter := fun o q =>
  if o.locale ≠ "en-US" then none
  else
    let v := if o.style = .percent then q * 100 else q
    let n := jsRound (v * 10 ^ o.maximumFractionDigits)
    let ds := natDigits n.natAbs
    let k := o.maximumFractionDigits
    let ds := if ds.length ≤ k then List.replicate (k + 1 - ds.length) '0' ++ ds else ds
    let ip := ds.take (ds.length - k)
    let fp := ds.drop (ds.length - k)
    let ipG := if o.useGrouping then group3 ip else ip
    let core := ipG ++ (if 0 < k then '.' :: fp else [])
    let core := if o.style = .currency then '$' :: core else core
    let signed := if n < 0 then '-' :: core else core
    some (if o.style = .percent then signed ++ ['%'] else signed)

/-! ## The stateful pipeline -/

/-- The stores of the class (lines 27-30) together with its options: `raw`,
`formatted`, the last validation result, the transient editing flag. -/
structure State where
  raw : List Char
  formatted : List Char
  validation : ValidationResult
  isEditing : Bool
  options : Options
deriving DecidableEq

/-- The freshly constructed stores (lines 27-46). -/
def initialState : State where
  raw := []
  formatted := []
  validation := { isValid := true }
  isEditing := false
  options := defaultOptions

/-- `numericValue` (lines 56-59): `parseFloat(raw)`, with NaN mapped to 0. -/
def numericValue (st : State) : ℚ :=
  match jsParseFloat st.raw with
  | none => 0
  | some n => n

/-- The `handler` setter (lines 76-91): sanitize, validate, always publish the
validation result; commit `raw`/`formatted` only when the result is valid or
`strict` is off.  `isEditing` is set while editing (its 100 ms timer reset is
a UI affordance outside this model). -/
def handlerSet (intl : IntlFormatter) (st : State) (newVal : List Char) : State :=
  let cleaned := cleanInput st.options newVal
  let validation := validateInput st.options cleaned
  if validation.isValid || !st.options.strict then
    { st with
      isEditing := true
      validation := validation
      raw := cleaned
      formatted := formatNumber intl st.options cleaned }
  else
    { st with isEditing := true, validation := validation }

/-- A `string | number` argument. -/
inductive JsValue where
  | str : List Char → JsValue
  | num : ℚ → JsValue

/-- `typeof value === "string" ? value : value.toString()`. -/
def JsValue.toStr : JsValue → List Char
  | .str s => s
  | .num q => qToString q

/-- `setValue` (lines 244-247): stringify and assign through the handler. -/
def setValue (intl : IntlFormatter) (st : State) (v : JsValue) : State :=
  handlerSet intl st v.toStr

/-- `increment` (lines 305-309). -/
def increment (intl : IntlFormatter) (st : State) (step : ℚ) : State :=
  setValue intl st (.num (numericValue st + step))

/-- `decrement` (lines 311-313). -/
def decrement (intl : IntlFormatter) (st : State) (step : ℚ) : State :=
  increment intl st (-step)

/-- `setOptions` (lines 223-235): merge, revalidate the existing `raw`,
publish the validation, and re-format `raw` under the strict-mode gate. -/
def setOptions (intl : IntlFormatter) (st : State) (p : PartialOptions) : State :=
  let o := mergeOptions st.options p
  let validation := validateInput o st.raw
  let st1 := { st with options := o, validation := validation }
  if validation.isValid || !o.strict then
    { st1 with formatted := formatNumber intl o st.raw }
  else st1

/-- `reset` (lines 237-242). -/
def reset (st : State) : State :=
  { st with raw := [], formatted := [], validation := { isValid := true }, isEditing := false }

/-- The constructor (lines 53-63): apply the options when given, then assign
`initial.toString()` through the handler when given. -/
def mkFormatter (intl : IntlFormatter) (initial : Option JsValue)
    (opts : Option PartialOptions) : State :=
  let st0 := initialState
  let st1 := match opts with
    | some p => setOptions intl st0 p
    | none => st0
  match initial with
  | some v => handlerSet intl st1 v.toStr
  | none => st1

/-- The sanitization invariant of the spec: only characters from `[0-9.-]`,
at most one `-` and only as the first character, at most one `.`. -/
def SanitizedStr (l : List Char) : Prop :=
  (∀ c ∈ l, c.isDigit ∨ c = '.' ∨ c = '-') ∧
  l.count '-' ≤ 1 ∧ '-' ∉ l.tail ∧ l.count '.' ≤ 1

instance (l : List Char) : Decidable (SanitizedStr l) := by
  unfold SanitizedStr; infer_instance

/-! ## Structural lemmas about the sanitizer's building blocks -/

theorem splitOnChar_ne_nil (c : Char) : ∀ l, splitOnChar c l ≠ []
  | [] => by simp [splitOnChar]
  | x :: xs => by
    simp only [splitOnChar]
    split
    · simp
    · split <;> simp

/-- `splitOnChar` in closed form: the first part is the run before the first
separator, the remaining parts split the rest. -/
theorem splitOnChar_eq (c : Char) (l : List Char) :
    splitOnChar c l =
      l.takeWhile (· != c) ::
        (match l.dropWhile (· != c) with
          | [] => ([] : List (List Char))
          | _ :: rest => splitOnChar c rest) := by
  induction l with
  | nil => simp [splitOnChar]
  | cons x xs ih =>
    by_cases hx : x = c
    · subst hx
      simp [splitOnChar, List.takeWhile_cons, List.dropWhile_cons]
    · have hb : (x != c) = true := by simpa using hx
      simp only [splitOnChar, if_neg hx]
      rw [ih]
      simp [List.takeWhile_cons, List.dropWhile_cons, hb]

theorem flatten_splitOnChar (c : Char) : ∀ l : List Char,
    (splitOnChar c l).flatten = l.filter (· != c)
  | [] => by simp [splitOnChar]
  | x :: xs => by
    have ih := flatten_splitOnChar c xs
    by_cases hx : x = c
    · subst hx
      simp [splitOnChar, ih]
    · have hb : (x != c) = true := by simpa using hx
      simp only [splitOnChar, if_neg hx]
      cases h : splitOnChar c xs with
      | nil => exact absurd h (splitOnChar_ne_nil c xs)
      | cons p ps =>
        rw [h] at ih
        simp only [List.flatten_cons, List.filter_cons, hb]
        simp only [List.flatten_cons] at ih
        simp [← ih, List.headI]

theorem length_splitOnChar (c : Char) : ∀ l : List Char,
    (splitOnChar c l).length = l.count c + 1
  | [] => by simp [splitOnChar]
  | x :: xs => by
    have ih := length_splitOnChar c xs
    by_cases hx : x = c
    · subst hx
      simp [splitOnChar, ih, List.count_cons]
    · simp only [splitOnChar, if_neg hx]
      cases h : splitOnChar c xs with
      | nil => exact absurd h (splitOnChar_ne_nil c xs)
      | cons p ps =>
        rw [h] at ih
        simp only [List.length_cons] at ih ⊢
        simp [List.count_cons, hx, ← ih]

theorem removeFirst_sublist (c : Char) : ∀ l, List.Sublist (removeFirst c l) l
  | [] => by simp [removeFirst]
  | x :: xs => by
    simp only [removeFirst]
    split
    · exact (List.sublist_cons_self x xs)
    · exact (removeFirst_sublist c xs).cons₂ x

theorem count_removeFirst (c : Char) : ∀ l : List Char,
    (removeFirst c l).count c = l.count c - 1
  | [] => by simp [removeFirst]
  | x :: xs => by
    simp only [removeFirst]
    split
    · next hx => subst hx; simp [List.count_cons]
    · next hx =>
      have ih := count_removeFirst c xs
      simp [List.count_cons, hx, ih]

theorem dropWhile_head_false (p : Char → Bool) (l : List Char) (d : Char) (rest : List Char)
    (h : l.dropWhile p = d :: rest) : p d = false := by
  have := List.head_dropWhile_not p l (by simp [h])
  simpa [h] using this

theorem count_takeWhile_ne (c : Char) (l : List Char) :
    (l.takeWhile (· != c)).count c = 0 := by
  rw [List.count_eq_zero]
  intro hmem
  have := List.mem_takeWhile_imp hmem
  simp at this

/-- Decomposition of a text with at least two dots: it is the run before the
first dot, the first dot, and the rest; `dotStep` keeps the first two pieces
and strips the dots from the rest. -/
theorem dot_decomp (l : List Char) (h : 2 ≤ l.count '.') :
    ∃ rest, l.dropWhile (· != '.') = '.' :: rest ∧
      l = l.takeWhile (· != '.') ++ '.' :: rest ∧
      dotStep l = l.takeWhile (· != '.') ++ '.' :: rest.filter (· != '.') := by
  cases hd : l.dropWhile (· != '.') with
  | nil =>
    exfalso
    have hl : l.takeWhile (· != '.') ++ l.dropWhile (· != '.') = l :=
      List.takeWhile_append_dropWhile _ _
    rw [hd, List.append_nil] at hl
    have := count_takeWhile_ne '.' l
    rw [hl] at this
    omega
  | cons d rest =>
    have hdot : d = '.' := by simpa using dropWhile_head_false _ _ _ _ hd
    subst hdot
    refine ⟨rest, rfl, ?_, ?_⟩
    · conv_lhs => rw [← List.takeWhile_append_dropWhile (· != '.') l]
      rw [hd]
    · have hsplit := splitOnChar_eq '.' l
      rw [hd] at hsplit
      simp only at hsplit
      have hlen : (splitOnChar '.' l).length = l.count '.' + 1 := length_splitOnChar '.' l
      unfold dotStep
      rw [if_pos (by omega)]
      rw [hsplit]
      simp [List.headI, flatten_splitOnChar]

theorem dotStep_eq_self (l : List Char) (h : l.count '.' ≤ 1) : dotStep l = l := by
  unfold dotStep
  have hlen : (splitOnChar '.' l).length = l.count '.' + 1 := length_splitOnChar '.' l
  rw [if_neg (by omega)]

/-- The sanitized-dots text is a sublist of its input (only dots are removed). -/
theorem dotStep_sublist (l : List Char) : List.Sublist (dotStep l) l := by
  rcases le_or_lt (l.count '.') 1 with h | h
  · rw [dotStep_eq_self l h]
  · obtain ⟨rest, hdw, hl, hds⟩ := dot_decomp l h
    rw [hds]
    conv_rhs => rw [hl]
    exact ((List.filter_sublist rest).cons₂ '.').append_left _

theorem dotStep_tail_sublist (l : List Char) : List.Sublist (dotStep l).tail l.tail := by
  rcases le_or_lt (l.count '.') 1 with h | h
  · rw [dotStep_eq_self l h]
  · obtain ⟨rest, hdw, hl, hds⟩ := dot_decomp l h
    have hsub : List.Sublist (rest.filter (· != '.')) rest := List.filter_sublist rest
    cases htw : l.takeWhile (· != '.') with
    | nil =>
      rw [htw] at hl hds
      rw [hds]
      conv_rhs => rw [hl]
      simpa using hsub
    | cons a tw =>
      rw [htw] at hl hds
      rw [hds]
      conv_rhs => rw [hl]
      simp only [List.cons_append, List.tail_cons]
      exact (hsub.cons₂ '.').append_left tw

theorem count_filter_ne_dot (a : Char) (ha : a ≠ '.') (rest : List Char) :
    (rest.filter (· != '.')).count a = rest.count a := by
  induction rest with
  | nil => rfl
  | cons x xs ih =>
    by_cases hx : x = '.'
    · subst hx
      have hna : ¬('.' = a) := fun h => ha h.symm
      simp [List.filter_cons, List.count_cons, hna, ih]
    · have hxb : (x != '.') = true := by simpa using hx
      simp [List.filter_cons, hxb, List.count_cons, ih]

theorem count_dotStep_of_ne (a : Char) (ha : a ≠ '.') (l : List Char) :
    (dotStep l).count a = l.count a := by
  rcases le_or_lt (l.count '.') 1 with h | h
  · rw [dotStep_eq_self l h]
  · obtain ⟨rest, hdw, hl, hds⟩ := dot_decomp l h
    rw [hds]
    conv_rhs => rw [hl]
    rw [List.count_append, List.count_append, List.count_cons, List.count_cons,
      count_filter_ne_dot a ha rest]

theorem count_dot_dotStep_le_one (l : List Char) : (dotStep l).count '.' ≤ 1 := by
  rcases le_or_lt (l.count '.') 1 with h | h
  · rw [dotStep_eq_self l h]; exact h
  · obtain ⟨rest, hdw, hl, hds⟩ := dot_decomp l h
    have h1 : (rest.filter (· != '.')).count '.' = 0 := by
      rw [List.count_eq_zero]
      intro hmem
      have := (List.mem_filter.mp hmem).2
      simp at this
    rw [hds]
    simp [List.count_append, List.count_cons, count_takeWhile_ne, h1]

/-! Lemmas about `minusStep`. -/

theorem count_minus_filter_ne (l : List Char) : (l.filter (· != '-')).count '-' = 0 := by
  rw [List.count_eq_zero]
  intro hmem
  have := (List.mem_filter.mp hmem).2
  simp at this

theorem minusStep_of_not_mem (b : Bool) (l : List Char) (h : '-' ∉ l) :
    minusStep b l = l := by
  have hc : l.count '-' = 0 := List.count_eq_zero.mpr h
  have hcont : l.contains '-' = false := by simpa using h
  unfold minusStep
  rw [if_neg (by omega), hcont]
  simp

theorem minusStep_count_tail (b : Bool) (l : List Char) :
    (minusStep b l).count '-' ≤ 1 ∧ '-' ∉ (minusStep b l).tail := by
  have hr := count_minus_filter_ne l
  have hrm : '-' ∉ l.filter (· != '-') := List.count_eq_zero.mp hr
  unfold minusStep
  split
  · next h1 =>
    cases b with
    | true =>
      constructor
      · simp [List.count_cons, hr]
      · simpa using hrm
    | false =>
      constructor
      · simp [hr]
      · intro hm
        simp only [Bool.false_eq_true, if_false] at hm
        exact hrm (List.mem_of_mem_tail hm)
  · next h1 =>
    split
    · next h2 =>
      have hc1 : l.count '-' ≤ 1 := by omega
      have hcr : (removeFirst '-' l).count '-' = 0 := by
        rw [count_removeFirst]; omega
      have hnm : '-' ∉ removeFirst '-' l := List.count_eq_zero.mp hcr
      exact ⟨by omega, fun hm => hnm (List.mem_of_mem_tail hm)⟩
    · next h2 =>
      have hc1 : l.count '-' ≤ 1 := by omega
      refine ⟨hc1, ?_⟩
      intro hm
      have hmem : '-' ∈ l := List.mem_of_mem_tail hm
      have hcont : l.contains '-' = true := by simpa using hmem
      simp only [Bool.and_eq_true, Bool.not_eq_true', beq_eq_false_iff_ne, ne_eq, not_and,
        not_not] at h2
      have hhead : l.head? = some '-' := h2 hcont
      cases l with
      | nil => simp at hmem
      | cons x xs =>
        simp only [List.head?_cons, Option.some.injEq] at hhead
        subst hhead
        simp only [List.tail_cons] at hm
        have hx : xs.count '-' = 0 := by
          simp [List.count_cons] at hc1
          omega
        exact (List.count_eq_zero.mp hx) hm

theorem mem_minusStep (b : Bool) (l : List Char) (a : Char) (h : a ∈ minusStep b l) :
    a ∈ l ∨ a = '-' := by
  unfold minusStep at h
  split at h
  · cases b with
    | true =>
      simp only [if_true] at h
      rcases List.mem_cons.mp h with h | h
      · exact Or.inr h
      · exact Or.inl ((List.filter_sublist l).subset h)
    | false =>
      simp only [Bool.false_eq_true, if_false] at h
      exact Or.inl ((List.filter_sublist l).subset h)
  · split at h
    · exact Or.inl ((removeFirst_sublist '-' l).subset h)
    · exact Or.inl h

/-- Exactly when the minus survives `minusStep`: either there were several
minuses and the original input began with one, or there was exactly one minus
and it already led the filtered text. -/
theorem minus_mem_minusStep_iff (b : Bool) (l : List Char) :
    '-' ∈ minusStep b l ↔
      (1 < l.count '-' ∧ b = true) ∨ (l.count '-' = 1 ∧ l.head? = some '-') := by
  have hrm : '-' ∉ l.filter (· != '-') := List.count_eq_zero.mp (count_minus_filter_ne l)
  unfold minusStep
  split
  · next h1 =>
    cases b with
    | true =>
      refine ⟨fun _ => Or.inl ⟨h1, rfl⟩, fun _ => ?_⟩
      simp
    | false =>
      simp only [Bool.false_eq_true, if_false]
      constructor
      · intro hm; exact absurd hm hrm
      · rintro (⟨_, hb⟩ | ⟨hc, _⟩)
        · exact absurd hb (by simp)
        · omega
  · next h1 =>
    split
    · next h2 =>
      simp only [Bool.and_eq_true, Bool.not_eq_true', beq_eq_false_iff_ne, ne_eq] at h2
      obtain ⟨hcont, hhead⟩ := h2
      have hmem : '-' ∈ l := by simpa using hcont
      have hc1 : l.count '-' = 1 := by
        have := List.count_pos_iff.mpr hmem
        omega
      have hcr : (removeFirst '-' l).count '-' = 0 := by rw [count_removeFirst]; omega
      have hnm : '-' ∉ removeFirst '-' l := List.count_eq_zero.mp hcr
      constructor
      · intro hm; exact absurd hm hnm
      · rintro (⟨hgt, _⟩ | ⟨_, hh⟩)
        · omega
        · exact absurd hh hhead
    · next h2 =>
      simp only [Bool.and_eq_true, Bool.not_eq_true', beq_eq_false_iff_ne, ne_eq, not_and,
        not_not] at h2
      by_cases hmem : '-' ∈ l
      · have hcont : l.contains '-' = true := by simpa using hmem
        have hhead : l.head? = some '-' := h2 hcont
        have hc1 : l.count '-' = 1 := by
          have := List.count_pos_iff.mpr hmem
          omega
        constructor
        · intro _; exact Or.inr ⟨hc1, hhead⟩
        · intro _; exact hmem
      · have hc0 : l.count '-' = 0 := List.count_eq_zero.mpr hmem
        constructor
        · intro hm; exact absurd hm hmem
        · rintro (⟨hgt, _⟩ | ⟨hc, _⟩) <;> omega

/-! Character-level facts about the allowed-character filter. -/

theorem isAllowedChar_cases (o : Options) (a : Char) (h : isAllowedChar o a = true) :
    a.isDigit = true ∨ a = '.' ∨ a = '-' := by
  simp only [isAllowedChar, Bool.or_eq_true, Bool.and_eq_true, beq_iff_eq] at h
  rcases h with (h | ⟨_, h⟩) | ⟨_, h⟩
  · exact Or.inl h
  · exact Or.inr (Or.inl h)
  · exact Or.inr (Or.inr h)

theorem allowed_minus_false (o : Options) (h : o.allowNegative = false) :
    isAllowedChar o '-' = false := by
  have h1 : ('-' : Char).isDigit = false := by decide
  have h2 : (('-' : Char) == '.') = false := by decide
  simp [isAllowedChar, h, h1, h2]

theorem allowed_dot_false (o : Options) (h : o.allowDecimal = false) :
    isAllowedChar o '.' = false := by
  have h1 : ('.' : Char).isDigit = false := by decide
  have h2 : (('.' : Char) == '-') = false := by decide
  simp [isAllowedChar, h, h1, h2]

/-- The heart of the sanitization invariant: after the character filter, the
minus pass and the dot pass, the text is in canonical shape. -/
theorem sanitized_steps (o : Options) (b : Bool) (base : List Char) :
    SanitizedStr
      (if o.allowDecimal then
        dotStep (if o.allowNegative then minusStep b (base.filter (isAllowedChar o))
                 else base.filter (isAllowedChar o))
       else (if o.allowNegative then minusStep b (base.filter (isAllowedChar o))
             else base.filter (isAllowedChar o))) := by
  have hfmem : ∀ a ∈ base.filter (isAllowedChar o), isAllowedChar o a = true :=
    fun a ha => (List.mem_filter.mp ha).2
  set f := base.filter (isAllowedChar o) with hf
  set c4 := if o.allowNegative then minusStep b f else f with hc4
  have hc4mem : ∀ a ∈ c4, a ∈ f ∨ a = '-' := by
    intro a ha
    rw [hc4] at ha
    split at ha
    · exact mem_minusStep _ _ _ ha
    · exact Or.inl ha
  have hc4minus : c4.count '-' ≤ 1 ∧ '-' ∉ c4.tail := by
    rw [hc4]
    split
    · exact minusStep_count_tail b f
    · next hneg =>
      have hnegf : o.allowNegative = false := by simpa using hneg
      have hnm : '-' ∉ f := by
        intro hm
        have := hfmem '-' hm
        rw [allowed_minus_false o hnegf] at this
        exact absurd this (by simp)
      exact ⟨by rw [List.count_eq_zero.mpr hnm]; omega, fun hm => hnm (List.mem_of_mem_tail hm)⟩
  obtain ⟨hcnt, htl⟩ := hc4minus
  have hchar : ∀ a ∈ c4, a.isDigit = true ∨ a = '.' ∨ a = '-' := by
    intro a ha
    rcases hc4mem a ha with hf' | rfl
    · exact isAllowedChar_cases o a (hfmem a hf')
    · exact Or.inr (Or.inr rfl)
  split
  · refine ⟨?_, ?_, ?_, ?_⟩
    · intro a ha
      exact hchar a ((dotStep_sublist c4).subset ha)
    · exact le_trans ((dotStep_sublist c4).count_le '-') hcnt
    · intro hm
      exact htl ((dotStep_tail_sublist c4).subset hm)
    · exact count_dot_dotStep_le_one c4
  · next hdec =>
    have hdecf : o.allowDecimal = false := by simpa using hdec
    have hdot : '.' ∉ c4 := by
      intro hm
      rcases hc4mem '.' hm with hf' | habs
      · have := hfmem '.' hf'
        rw [allowed_dot_false o hdecf] at this
        exact absurd this (by simp)
      · exact absurd habs (by decide)
    exact ⟨hchar, hcnt, htl, by rw [List.count_eq_zero.mpr hdot]; omega⟩

/-- Every output of the sanitizer satisfies the canonical-shape invariant. -/
theorem sanitized_cleanInput (o : Options) (input : List Char) :
    SanitizedStr (cleanInput o input) := by
  unfold cleanInput
  split
  · decide
  · exact sanitized_steps o _ _

/-! State-level helper lemmas. -/

theorem setOptions_raw (intl : IntlFormatter) (st : State) (p : PartialOptions) :
    (setOptions intl st p).raw = st.raw := by
  simp only [setOptions]
  split <;> rfl

theorem handlerSet_raw (intl : IntlFormatter) (st : State) (s : List Char) :
    (handlerSet intl st s).raw = cleanInput st.options s ∨
      (handlerSet intl st s).raw = st.raw := by
  simp only [handlerSet]
  split
  · exact Or.inl rfl
  · exact Or.inr rfl

/-! ## Claim theorems -/

/-- C1: for every input string and options, the sanitized text stored in
`raw` contains only characters from `[0-9.-]`, at most one `-` and only as the
first character, and at most one `.`; this invariant holds after every public
operation that writes `raw`: the handler setter, `setValue`, `increment`,
`decrement`, the constructor, and `reset`. -/
theorem C1_raw_always_sanitized :
    (∀ (o : Options) (input : List Char), SanitizedStr (cleanInput o input)) ∧
    (∀ (intl : IntlFormatter) (st : State) (s : List Char),
      SanitizedStr st.raw → SanitizedStr (handlerSet intl st s).raw) ∧
    (∀ (intl : IntlFormatter) (st : State) (v : JsValue),
      SanitizedStr st.raw → SanitizedStr (setValue intl st v).raw) ∧
    (∀ (intl : IntlFormatter) (st : State) (step : ℚ),
      SanitizedStr st.raw → SanitizedStr (increment intl st step).raw) ∧
    (∀ (intl : IntlFormatter) (st : State) (step : ℚ),
      SanitizedStr st.raw → SanitizedStr (decrement intl st step).raw) ∧
    (∀ (intl : IntlFormatter) (initial : Option JsValue) (p : Option PartialOptions),
      SanitizedStr (mkFormatter intl initial p).raw) ∧
    (∀ st : State, SanitizedStr (reset st).raw) := by
  have hhand : ∀ (intl : IntlFormatter) (st : State) (s : List Char),
      SanitizedStr st.raw → SanitizedStr (handlerSet intl st s).raw := by
    intro intl st s hst
    rcases handlerSet_raw intl st s with h | h <;> rw [h]
    · exact sanitized_cleanInput _ _
    · exact hst
  refine ⟨sanitized_cleanInput, hhand, ?_, ?_, ?_, ?_, ?_⟩
  · intro intl st v hst
    exact hhand _ _ _ hst
  · intro intl st step hst
    exact hhand _ _ _ hst
  · intro intl st step hst
    exact hhand _ _ _ hst
  · intro intl initial p
    unfold mkFormatter
    cases initial with
    | none =>
      cases p with
      | none =>
        show SanitizedStr initialState.raw
        decide
      | some popt =>
        show SanitizedStr (setOptions intl initialState popt).raw
        rw [setOptions_raw]
        decide
    | some v =>
      cases p with
      | none =>
        exact hhand intl initialState v.toStr
          (by show SanitizedStr initialState.raw; decide)
      | some popt =>
        exact hhand intl (setOptions intl initialState popt) v.toStr
          (by rw [setOptions_raw]; decide)
  · intro st
    show SanitizedStr []
    decide

theorem C1_raw_always_sanitized_witness :
    SanitizedStr (initialState.raw) ∧
    SanitizedStr (handlerSet enUSIntl initialState "ab--1.2.3-x".data).raw :=
  ⟨by decide, C1_raw_always_sanitized.2.1 enUSIntl initialState "ab--1.2.3-x".data (by decide)⟩

/-- C2: the handler setter always publishes the validation result of the
sanitized input; it commits `raw`/`formatted` (to the sanitized text and its
formatting) when the result is valid or `strict` is off, and otherwise leaves
`raw`/`formatted` exactly as they were before the call. -/
theorem C2_handler_commit_gate :
    ∀ (intl : IntlFormatter) (st : State) (s : List Char),
      (handlerSet intl st s).validation = validateInput st.options (cleanInput st.options s) ∧
      (((validateInput st.options (cleanInput st.options s)).isValid = true ∨
          st.options.strict = false) →
        (handlerSet intl st s).raw = cleanInput st.options s ∧
        (handlerSet intl st s).formatted =
          formatNumber intl st.options (cleanInput st.options s)) ∧
      ((validateInput st.options (cleanInput st.options s)).isValid = false ∧
          st.options.strict = true →
        (handlerSet intl st s).raw = st.raw ∧
        (handlerSet intl st s).formatted = st.formatted) := by
  intro intl st s
  simp only [handlerSet]
  split
  · next hcond =>
    refine ⟨rfl, fun _ => ⟨rfl, rfl⟩, ?_⟩
    rintro ⟨hv, hs⟩
    rw [hv, hs] at hcond
    simp at hcond
  · next hcond =>
    refine ⟨rfl, ?_, fun _ => ⟨rfl, rfl⟩⟩
    intro h
    exfalso
    rcases h with h | h
    · exact hcond (by simp [h])
    · exact hcond (by simp [h])

/-- A strict formatter at `max = 100` holding the committed value `100`. -/
def strictMax100 : State :=
  { initialState with
    raw := "100".data
    formatted := "100".data
    options := { defaultOptions with max := 100, strict := true } }

theorem C2_handler_commit_gate_witness :
    ((validateInput strictMax100.options (cleanInput strictMax100.options "101".data)).isValid
        = false ∧ strictMax100.options.strict = true) ∧
    (handlerSet enUSIntl strictMax100 "101".data).raw = strictMax100.raw ∧
    (handlerSet enUSIntl strictMax100 "101".data).formatted = strictMax100.formatted :=
  ⟨by decide, (C2_handler_commit_gate enUSIntl strictMax100 "101".data).2.2 (by decide)⟩

/-- C10: with `decimals > 0` the validator never produces a warning, however
many fractional digits the text has; the rounding warning can only arise when
`decimals = 0`. -/
theorem C10_warning_only_when_decimals_zero :
    ∀ (o : Options) (v : List Char),
      (o.decimals ≠ 0 → (validateInput o v).warning = none) ∧
      ((validateInput o v).warning ≠ none → o.decimals = 0) := by
  intro o v
  have hnone : o.decimals ≠ 0 → (validateInput o v).warning = none := by
    intro hd
    unfold validateInput
    split
    · rfl
    · split
      · rfl
      · split
        · rfl
        · split
          · rfl
          · split
            · next hcond =>
              exfalso
              rw [Bool.and_eq_true] at hcond
              exact hd (by simpa using hcond.1)
            · rfl
  refine ⟨hnone, ?_⟩
  intro hw
  by_contra hd
  exact hw (hnone hd)

theorem C10_warning_only_when_decimals_zero_witness :
    ({ defaultOptions with decimals := 2 } : Options).decimals ≠ 0 ∧
    (validateInput { defaultOptions with decimals := 2 } "1.2345".data).warning = none :=
  ⟨by decide,
    (C10_warning_only_when_decimals_zero { defaultOptions with decimals := 2 }
      "1.2345".data).1 (by decide)⟩

/-- C3: the validator's cases in evaluation order — empty text is valid with
no message; unparsable text is the format error; below `min` names the
minimum and its value; above `max` names the maximum and its value; with
`decimals = 0` and a non-empty fractional part the result is valid with the
rounding warning; a warning never makes the result invalid, so it never
blocks a commit even in strict mode. -/
theorem C3_validate_order_and_messages :
    ∀ (o : Options) (v : List Char),
      validateInput o [] = { isValid := true } ∧
      (v ≠ [] → jsParseFloat v = none →
        validateInput o v =
          { isValid := false, error := some "Invalid number format".data }) ∧
      (∀ n : ℚ, v ≠ [] → jsParseFloat v = some n → n < o.min →
        validateInput o v =
          { isValid := false,
            error := some ("Value must be at least ".data ++ qToString o.min) }) ∧
      (∀ n : ℚ, v ≠ [] → jsParseFloat v = some n → ¬n < o.min → o.max < n →
        validateInput o v =
          { isValid := false,
            error := some ("Value must be at most ".data ++ qToString o.max) }) ∧
      (∀ n : ℚ, v ≠ [] → jsParseFloat v = some n → ¬n < o.min → ¬o.max < n →
        o.decimals = 0 → (splitOnChar '.' v).tail.headD [] ≠ [] →
        validateInput o v =
          { isValid := true, warning := some "Decimal places will be rounded".data }) ∧
      ((validateInput o v).warning ≠ none → (validateInput o v).isValid = true) ∧
      (∀ (intl : IntlFormatter) (st : State) (s : List Char),
        (validateInput st.options (cleanInput st.options s)).isValid = true →
        (handlerSet intl st s).raw = cleanInput st.options s) := by
  intro o v
  refine ⟨by simp [validateInput], ?_, ?_, ?_, ?_, ?_, ?_⟩
  · intro hne hparse
    simp [validateInput, if_neg hne, hparse]
  · intro n hne hparse hmin
    simp [validateInput, if_neg hne, hparse, if_pos hmin]
  · intro n hne hparse hmin hmax
    simp [validateInput, if_neg hne, hparse, if_neg hmin, if_pos hmax]
  · intro n hne hparse hmin hmax hdec hfrac
    have htail : (splitOnChar '.' v).tail ≠ [] := by
      intro h0
      rw [h0] at hfrac
      simp at hfrac
    have hlen := length_splitOnChar '.' v
    have hpos : 0 < v.count '.' := by
      rcases hs : splitOnChar '.' v with _ | ⟨p, ps⟩
      · exact absurd hs (splitOnChar_ne_nil '.' v)
      · rw [hs] at htail hlen
        cases ps with
        | nil => simp at htail
        | cons q qs => simp at hlen; omega
    have hmem : '.' ∈ v := List.count_pos_iff.mp hpos
    have hcond : (decide (o.decimals = 0) && v.contains '.') = true := by
      simp [hdec, hmem]
    cases hh : (splitOnChar '.' v).tail.head? with
    | none =>
      exfalso
      rw [List.head?_eq_none_iff] at hh
      exact htail hh
    | some dp =>
      have hdp : dp ≠ [] := by
        have : (splitOnChar '.' v).tail.headD [] = dp := by
          simp [List.headD_eq_head?, hh]
        rwa [this] at hfrac
      simp only [validateInput, if_neg hne, hparse, if_neg hmin, if_neg hmax, hcond, hh]
      rw [if_pos trivial, if_pos hdp]
  · intro hw
    have hcases : validateInput o v = { isValid := true } ∨
        (∃ e, validateInput o v = { isValid := false, error := some e }) ∨
        validateInput o v =
          { isValid := true, warning := some "Decimal places will be rounded".data } := by
      unfold validateInput
      split
      · exact Or.inl rfl
      · split
        · exact Or.inr (Or.inl ⟨_, rfl⟩)
        · split
          · exact Or.inr (Or.inl ⟨_, rfl⟩)
          · split
            · exact Or.inr (Or.inl ⟨_, rfl⟩)
            · split
              · split
                · split
                  · exact Or.inr (Or.inr rfl)
                  · exact Or.inl rfl
                · exact Or.inl rfl
              · exact Or.inl rfl
    rcases hcases with h | ⟨e, h⟩ | h
    · rw [h]
    · rw [h] at hw
      simp at hw
    · rw [h]
  · intro intl st s hv
    simp only [handlerSet]
    rw [if_pos (by simp [hv])]

theorem C3_validate_order_and_messages_witness :
    validateInput { defaultOptions with min := 0, max := 100 } "150".data =
      { isValid := false,
        error := some ("Value must be at most ".data ++
          qToString ({ defaultOptions with min := 0, max := 100 } : Options).max) } ∧
    validateInput defaultOptions "12.5".data =
      { isValid := true, warning := some "Decimal places will be rounded".data } :=
  ⟨(C3_validate_order_and_messages { defaultOptions with min := 0, max := 100 }
      "150".data).2.2.2.1 150 (by decide) (by decide) (by decide) (by decide),
   (C3_validate_order_and_messages defaultOptions "12.5".data).2.2.2.2.1 (25 / 2)
      (by decide) (by decide) (by decide) (by decide) (by decide) (by decide)⟩

/-- C4 counterexample: the claim says a `-` is kept only when the original
input starts with `-`, but on `"a-5"` (which starts with `'a'`) the code keeps
the minus: after filtering, the single `-` leads the filtered text, and the
single-minus branch checks the filtered text, not the original input. -/
theorem C4_counterexample :
    cleanInput defaultOptions "a-5".data = "-5".data ∧
    "a-5".data.head? ≠ some '-' ∧
    '-' ∈ cleanInput defaultOptions "a-5".data := by decide

/-- C4 (amended): with negatives allowed and no prefix/suffix configured, a
`-` survives sanitization iff either the filtered text has more than one `-`
and the *original* input starts with `-` (multi-minus branch), or the filtered
text has exactly one `-` and that minus already leads the *filtered* text
(single-minus branch — so `Sanitize("--12") = "-12"` and
`Sanitize("12-34") = "1234"`, but a filtered-leading minus survives even when
the original input did not start with `-`). -/
theorem C4_minus_policy :
    (∀ (o : Options) (input : List Char),
      o.allowNegative = true → o.prefixText = [] → o.suffixText = [] →
      ('-' ∈ cleanInput o input ↔
        (1 < (input.filter (isAllowedChar o)).count '-' ∧ input.head? = some '-') ∨
        ((input.filter (isAllowedChar o)).count '-' = 1 ∧
          (input.filter (isAllowedChar o)).head? = some '-'))) ∧
    cleanInput defaultOptions "--12".data = "-12".data ∧
    cleanInput defaultOptions "12-34".data = "1234".data := by
  refine ⟨?_, by decide, by decide⟩
  intro o input hneg hpre hsuf
  by_cases hin : input = []
  · subst hin
    simp [cleanInput]
  · unfold cleanInput
    rw [if_neg hin]
    simp only [hpre, hsuf, List.isEmpty_nil, Bool.not_true, Bool.false_and,
      Bool.false_eq_true, if_false, hneg, if_true]
    have hmd : ∀ m : List Char, '-' ∈ dotStep m ↔ '-' ∈ m := by
      intro m
      rw [← List.count_pos_iff, ← List.count_pos_iff, count_dotStep_of_ne '-' (by decide)]
    have key := minus_mem_minusStep_iff (input.head? == some '-')
      (input.filter (isAllowedChar o))
    split
    · rw [hmd, key]
      simp [beq_iff_eq]
    · rw [key]
      simp [beq_iff_eq]

/-- C5: with decimals allowed and no prefix/suffix, on digit-and-dot input
holding at least two dots, the sanitizer keeps the text before the first dot,
the first dot, and merges all digits after later dots into one fractional
run; in particular `"1.2.3"` sanitizes to `"1.23"`. -/
theorem C5_dot_merging :
    (∀ (o : Options) (input : List Char),
      o.allowDecimal = true → o.prefixText = [] → o.suffixText = [] →
      (∀ c ∈ input, c.isDigit = true ∨ c = '.') → 2 ≤ input.count '.' →
      cleanInput o input =
        input.takeWhile (· != '.') ++
          '.' :: ((input.dropWhile (· != '.')).tail.filter (· != '.'))) ∧
    cleanInput defaultOptions "1.2.3".data = "1.23".data := by
  refine ⟨?_, by decide⟩
  intro o input hdec hpre hsuf hchars h2
  have hin : input ≠ [] := by
    intro h0
    rw [h0] at h2
    simp at h2
  unfold cleanInput
  rw [if_neg hin]
  simp only [hpre, hsuf, List.isEmpty_nil, Bool.not_true, Bool.false_and,
    Bool.false_eq_true, if_false]
  have hfid : input.filter (isAllowedChar o) = input := by
    rw [List.filter_eq_self]
    intro a ha
    rcases hchars a ha with h | rfl
    · simp [isAllowedChar, h]
    · simp [isAllowedChar, hdec]
  have hnm : '-' ∉ input := by
    intro hm
    rcases hchars '-' hm with h | h
    · exact absurd h (by decide)
    · exact absurd h (by decide)
  rw [hfid]
  have hstep : (if o.allowNegative = true
      then minusStep (input.head? == some '-') input else input) = input := by
    split
    · exact minusStep_of_not_mem _ _ hnm
    · rfl
  rw [hstep, hdec, if_pos rfl]
  obtain ⟨rest, hdw, hl, hds⟩ := dot_decomp input h2
  rw [hds, hdw]
  simp

/-- An oracle modelling a locale formatter that always throws. -/
def throwingIntl : IntlFormatter := fun _ _ => none

/-- C6: when the locale-formatting facility throws (`none`), `formatNumber`
returns the sanitized text unmodified — the prefix/suffix are not attached,
since they are added only after a successful format — and emits its non-fatal
diagnostic; being a total function of its inputs, it never propagates the
failure to the caller. -/
theorem C6_format_fallback :
    ∀ (intl : IntlFormatter) (o : Options) (v : List Char) (n : ℚ),
      v ≠ [] → jsParseFloat v = some n →
      intl (mkIntlOptions o) (if o.style = .percent then n / 100 else n) = none →
      formatNumberCore intl o v = (v, true) := by
  intro intl o v n hne hparse hthrow
  unfold formatNumberCore
  rw [if_neg hne]
  simp only [hparse, hthrow]

theorem C6_format_fallback_witness :
    ("5".data ≠ ([] : List Char)) ∧
    formatNumberCore throwingIntl { defaultOptions with prefixText := "$".data } "5".data =
      ("5".data, true) :=
  ⟨by decide,
    C6_format_fallback throwingIntl { defaultOptions with prefixText := "$".data }
      "5".data 5 (by decide) (by decide) rfl⟩

/-- C7: for parsable text under the percent style, the parsed value is
divided by 100 before it is handed to the locale formatter (so raw `"50"`
with `decimals = 0` renders as `"50%"` under the `en-US` model); for empty or
unparsable text `formatNumber` returns the configured placeholder. -/
theorem C7_percent_division_and_placeholder :
    (∀ (intl : IntlFormatter) (o : Options) (v : List Char) (n : ℚ),
      v ≠ [] → jsParseFloat v = some n → o.style = .percent →
      formatNumber intl o v =
        (match intl (mkIntlOptions o) (n / 100) with
        | some f => o.prefixText ++ f ++ o.suffixText
        | none => v)) ∧
    formatNumber enUSIntl { defaultOptions with style := .percent } "50".data =
      "50%".data ∧
    (∀ (intl : IntlFormatter) (o : Options) (v : List Char),
      v = [] ∨ jsParseFloat v = none → formatNumber intl o v = o.placeholder) := by
  refine ⟨?_, by decide, ?_⟩
  · intro intl o v n hne hparse hstyle
    unfold formatNumber formatNumberCore
    rw [if_neg hne]
    simp only [hparse, if_pos hstyle]
    cases hI : intl (mkIntlOptions o) (n / 100) <;> simp [hI]
  · intro intl o v h
    rcases h with rfl | hP
    · unfold formatNumber formatNumberCore
      simp
    · unfold formatNumber formatNumberCore
      by_cases hv : v = []
      · simp [hv]
      · rw [if_neg hv]
        simp [hP]

theorem C7_percent_division_and_placeholder_witness :
    (([] : List Char) = [] ∨ jsParseFloat [] = none) ∧
    formatNumber throwingIntl { defaultOptions with placeholder := "N/A".data } [] =
      "N/A".data :=
  ⟨Or.inl rfl,
    C7_percent_division_and_placeholder.2.2 throwingIntl
      { defaultOptions with placeholder := "N/A".data } [] (Or.inl rfl)⟩

/-- C8: `setOptions` merges the partial options into the current ones,
re-validates the *existing* `raw` text under the merged options (no
re-sanitization — the validator and formatter receive `st.raw` itself),
publishes that validation result, re-formats under the same strict-mode gate
as a commit, and never changes `raw`. -/
theorem C8_setOptions_frame :
    ∀ (intl : IntlFormatter) (st : State) (p : PartialOptions),
      (setOptions intl st p).options = mergeOptions st.options p ∧
      (setOptions intl st p).raw = st.raw ∧
      (setOptions intl st p).validation =
        validateInput (mergeOptions st.options p) st.raw ∧
      (setOptions intl st p).formatted =
        (if (validateInput (mergeOptions st.options p) st.raw).isValid = true ∨
            (mergeOptions st.options p).strict = false then
          formatNumber intl (mergeOptions st.options p) st.raw
        else st.formatted) ∧
      (setOptions intl st p).isEditing = st.isEditing := by
  intro intl st p
  simp only [setOptions]
  split
  · next hcond =>
    simp only [Bool.or_eq_true, Bool.not_eq_true'] at hcond
    exact ⟨rfl, rfl, rfl, by rw [if_pos hcond], rfl⟩
  · next hcond =>
    simp only [Bool.or_eq_true, Bool.not_eq_true'] at hcond
    exact ⟨rfl, rfl, rfl, by rw [if_neg hcond], rfl⟩

/-- C9: `increment(step)` feeds the stringified `value + step` through
exactly the same commit protocol as a direct handler assignment (same
sanitization, same validation, no bypass), `decrement(step)` is
`increment(-step)`, and under strict mode a step whose result fails
validation leaves the committed `raw`/`formatted` unchanged instead of
clamping. -/
theorem C9_step_through_commit :
    ∀ (intl : IntlFormatter) (st : State) (step : ℚ),
      increment intl st step =
        handlerSet intl st (qToString (numericValue st + step)) ∧
      decrement intl st step = increment intl st (-step) ∧
      (st.options.strict = true →
        (validateInput st.options
            (cleanInput st.options (qToString (numericValue st + step)))).isValid = false →
        (increment intl st step).raw = st.raw ∧
        (increment intl st step).formatted = st.formatted) := by
  intro intl st step
  refine ⟨rfl, rfl, ?_⟩
  intro hstrict hinvalid
  simp only [increment, setValue, JsValue.toStr]
  simp only [handlerSet]
  rw [if_neg (by simp [hinvalid, hstrict])]
  exact ⟨rfl, rfl⟩

theorem C9_step_through_commit_witness :
    strictMax100.options.strict = true ∧
    (validateInput strictMax100.options
        (cleanInput strictMax100.options
          (qToString (numericValue strictMax100 + 1)))).isValid = false ∧
    (increment enUSIntl strictMax100 1).raw = strictMax100.raw ∧
    (increment enUSIntl strictMax100 1).formatted = strictMax100.formatted :=
  ⟨by decide, by decide,
    ((C9_step_through_commit enUSIntl strictMax100 1).2.2 (by decide) (by decide)).1,
    ((C9_step_through_commit enUSIntl strictMax100 1).2.2 (by decide) (by decide)).2⟩

theorem C4_minus_policy_witness :
    defaultOptions.allowNegative = true ∧ defaultOptions.prefixText = [] ∧
    defaultOptions.suffixText = [] ∧
    ('-' ∈ cleanInput defaultOptions "a-5".data ↔
      (1 < ("a-5".data.filter (isAllowedChar defaultOptions)).count '-' ∧
        "a-5".data.head? = some '-') ∨
      (("a-5".data.filter (isAllowedChar defaultOptions)).count '-' = 1 ∧
        ("a-5".data.filter (isAllowedChar defaultOptions)).head? = some '-')) :=
  ⟨rfl, rfl, rfl, C4_minus_policy.1 defaultOptions "a-5".data rfl rfl rfl⟩

theorem C5_dot_merging_witness :
    (∀ c ∈ "1.2.3".data, c.isDigit = true ∨ c = '.') ∧
    2 ≤ "1.2.3".data.count '.' ∧
    cleanInput defaultOptions "1.2.3".data =
      "1.2.3".data.takeWhile (· != '.') ++
        '.' :: (("1.2.3".data.dropWhile (· != '.')).tail.filter (· != '.')) :=
  ⟨by decide, by decide,
    C5_dot_merging.1 defaultOptions "1.2.3".data rfl rfl rfl (by decide) (by decide)⟩

end NF
